import Mathlib

/-!
Verification of the ERC-20 balance checker script (`main.py`).

The script is embedded shallowly:

* `read_addresses` models the address-file reader (line filtering).
* `get_rpc_url` models the RPC-endpoint configuration lookup.
* Python `decimal.Decimal` values are modelled by `Dec`, a coefficient /
  exponent pair (exactly the representation the `decimal` module uses);
  the script sets the context precision to 40 significant digits, so every
  arithmetic operation rounds its exact result to 40 significant digits
  with round-half-even (`round40`).  `Dec.val` gives the exact rational
  value of a `Dec`.
* `fmt4` models Python `format(x, ",.4f")` on a `Decimal`: quantize to 4
  fractional digits with the context rounding (round-half-even), then
  render with thousands separators.
* `mainRun` models the control flow of `main()` over an abstract `World`
  (environment variable, connectivity, checksum oracle, token metadata,
  address file, balanceOf oracle), producing the list of externally
  visible events, the printed lines, and the terminating error if any.
-/

/-- Decimal digits of `n`, least significant first, driven by explicit fuel
so that the recursion is structural.  `digitsRevFuel (n+1) n` is always
complete. -/
def digitsRevFuel : ℕ → ℕ → List ℕ
  | 0, _ => []
  | f + 1, n => if n < 10 then [n] else n % 10 :: digitsRevFuel f (n / 10)

/-- The character for a single decimal digit. -/
def digitChar (d : ℕ) : Char := Char.ofNat (48 + d)

/-- Insert a thousands separator after every third character of a
least-significant-first digit list. -/
def commasRev : List Char → List Char
  | a :: b :: c :: d :: rest => a :: b :: c :: ',' :: commasRev (d :: rest)
  | l => l

/-- Render a natural number in decimal with thousands separators, as the
`,` option of Python's format mini-language does. -/
def commaFmt (n : ℕ) : String :=
  String.mk (commasRev ((digitsRevFuel (n + 1) n).map digitChar)).reverse

/-- Render `m < 10000` as exactly four zero-padded digits. -/
def pad4 (m : ℕ) : String :=
  String.mk [digitChar (m / 1000 % 10), digitChar (m / 100 % 10),
    digitChar (m / 10 % 10), digitChar (m % 10)]

/-- Divide `n` by `m`, rounding to the nearest integer with ties going to
the even quotient (the `ROUND_HALF_EVEN` rule of Python's `decimal`). -/
def halfEvenDivNat (n m : ℕ) : ℕ :=
  if 2 * (n % m) < m then n / m
  else if m < 2 * (n % m) then n / m + 1
  else if (n / m) % 2 = 0 then n / m else n / m + 1

/-- `halfEvenDivNat` on an integer coefficient divided by `10^k`,
rounding the magnitude (sign-magnitude half-even, as `decimal` does). -/
def halfEvenDivPow10 (c : ℤ) (k : ℕ) : ℤ :=
  if 0 ≤ c then (halfEvenDivNat c.toNat (10 ^ k) : ℤ)
  else -(halfEvenDivNat (-c).toNat (10 ^ k) : ℤ)

/-- Number of decimal digits of `n` (1 for `n = 0`), with explicit fuel so
that the recursion is structural.  `digitCountFuel (n+1) n` is complete. -/
def digitCountFuel : ℕ → ℕ → ℕ
  | 0, _ => 1
  | f + 1, n => if n < 10 then 1 else digitCountFuel f (n / 10) + 1

/-- Number of decimal digits of `n`; the length of the coefficient of a
Python `Decimal` whose coefficient is `n`. -/
def digitCount (n : ℕ) : ℕ := digitCountFuel (n + 1) n

/-- A Python `decimal.Decimal` finite value: coefficient `c` and exponent
`e`, denoting `c * 10^e`. -/
structure Dec where
  c : ℤ
  e : ℤ
deriving DecidableEq

/-- `Decimal(n)` for a natural number `n`: exact, exponent `0`. -/
def Dec.ofNat (n : ℕ) : Dec := ⟨n, 0⟩

/-- The exact rational value denoted by a `Dec`. -/
def Dec.val (x : Dec) : ℚ := (x.c : ℚ) * 10 ^ x.e

/-- Round a `Dec` to the context precision of 40 significant digits with
round-half-even, as every arithmetic operation of Python's `decimal`
module does after `getcontext().prec = 40`.  A coefficient that already
fits in 40 digits is returned unchanged. -/
def round40 (x : Dec) : Dec :=
  if digitCount x.c.natAbs ≤ 40 then x
  else ⟨halfEvenDivPow10 x.c (digitCount x.c.natAbs - 40),
        x.e + (digitCount x.c.natAbs - 40)⟩

/-- `Decimal` division by the exact power `Decimal(10^d)`: the exact
quotient `c * 10^(e-d)` rounded to the context precision.  This is the
only division the script performs (`Decimal(raw) / Decimal(10**decimals)`). -/
def Dec.divPow10 (x : Dec) (d : ℕ) : Dec := round40 ⟨x.c, x.e - d⟩

/-- `Decimal` addition: align exponents, add coefficients exactly, then
round to the context precision (the semantics of `total += bal` under
`getcontext().prec = 40`). -/
def Dec.add (x y : Dec) : Dec :=
  round40 ⟨x.c * 10 ^ (x.e - if x.e ≤ y.e then x.e else y.e).toNat
      + y.c * 10 ^ (y.e - if x.e ≤ y.e then x.e else y.e).toNat,
      if x.e ≤ y.e then x.e else y.e⟩

/-- The balance conversion performed by `fetch_balance`:
`Decimal(raw) / Decimal(10**decimals)` at context precision 40. -/
def convert (decimals : ℕ) (raw : ℕ) : Dec :=
  Dec.divPow10 (Dec.ofNat raw) decimals

/-- The integer printed when a `Dec` is formatted with `.4f`, scaled by
`10^4`: the value quantized to 4 fractional digits with round-half-even
(the context rounding used by `Decimal.__format__`). -/
def quantize4 (x : Dec) : ℤ :=
  if 0 ≤ x.e + 4 then x.c * 10 ^ (x.e + 4).toNat
  else halfEvenDivPow10 x.c (-(x.e + 4)).toNat

/-- Render a quantized (scale `10^4`) nonnegative integer with a decimal
point and thousands separators. -/
def natFmt4 (n : ℕ) : String := commaFmt (n / 10000) ++ "." ++ pad4 (n % 10000)

/-- Python `format(x, ",.4f")` on a `Decimal` value. -/
def fmt4 (x : Dec) : String :=
  let n := quantize4 x
  if n < 0 then "-" ++ natFmt4 n.natAbs else natFmt4 n.toNat

/-- The per-address report line `f"{addr} : {bal:,.4f} {symbol}"`. -/
def fmtLine (addr : String) (bal : Dec) (symbol : String) : String :=
  addr ++ " : " ++ fmt4 bal ++ " " ++ symbol

/-- The final report line `f"Total: {total:,.4f} {symbol}"`. -/
def totalLine (total : Dec) (symbol : String) : String :=
  "Total: " ++ fmt4 total ++ " " ++ symbol

/-- Python `str.strip()` with no argument: remove whitespace from both
ends of the string (for the ASCII whitespace the inputs here contain). -/
def pyStrip (s : String) : String :=
  String.mk (((s.data.dropWhile Char.isWhitespace).reverse.dropWhile
    Char.isWhitespace).reverse)

/-- Python `s.startswith(p)`: `p` is a prefix of the character sequence of
`s`. -/
def pyStartsWith (s p : String) : Bool :=
  p.data.isPrefixOf s.data

/-- `read_addresses` (main.py line 56), applied to the lines of an
existing file: keep each line whose stripped form is non-empty and whose
raw text does not start with `#`, and return the stripped forms in file
order. -/
def read_addresses (lines : List String) : List String :=
  (lines.filter (fun line => !(pyStrip line = "") && !(pyStartsWith line "#"))).map
    (fun line => pyStrip line)

/-- Modelled from the spec (section 4.2 / section 8): the reader's contract
in the spec's words — walk the lines in order, discard a line when it is
blank or is a comment line (starts with `#`), and otherwise emit it trimmed
of surrounding whitespace. -/
def readAddressesSpec : List String → List String
  | [] => []
  | line :: rest =>
      if pyStrip line = "" ∨ pyStartsWith line "#" then readAddressesSpec rest
      else pyStrip line :: readAddressesSpec rest

/-- The run-terminating errors of the script. -/
inductive Err where
  | envMissing
  | connectFailed
  | fileNotFound
  | addrFail (a : String)
deriving DecidableEq

/-- `get_rpc_url` (main.py lines 59-65): the `RPC_URL` environment
variable after `load_dotenv`, required to be set and non-empty; returned
unchanged otherwise. -/
def get_rpc_url (rpcUrl : Option String) : Except Err String :=
  match rpcUrl with
  | none => .error .envMissing
  | some u => if u = "" then .error .envMissing else .ok u

/-- The externally visible events of a run, in order: client construction,
connectivity check, the two metadata calls, the address-file read, and one
`balanceOf` call per processed wallet. -/
inductive Ev where
  | constructClient
  | checkConnect
  | callDecimals
  | callSymbol
  | readFile
  | callBalanceOf (a : String)
deriving DecidableEq

/-- The abstract environment a run executes in: the `RPC_URL` variable (as
left by `load_dotenv`), connectivity, the token argument, the checksum
oracle (`Web3.to_checksum_address` succeeds or raises, a pure function of
the string), the token metadata the node reports, the address file, and
the `balanceOf` oracle (`none` means the call raises). -/
structure World where
  rpcUrl : Option String
  connected : Bool
  token : String
  checksumOk : String → Bool
  decimals : ℕ
  symbol : String
  fileExists : Bool
  fileLines : List String
  balanceOf : String → Option ℕ

/-- `fetch_balance` (main.py lines 68-76): checksum the token address,
checksum the wallet, call `balanceOf` (the event), and convert the raw
balance with `Decimal(raw) / Decimal(10**decimals)`.  `none` models the
exception paths (failed normalization or failed call). -/
def fetch_balance (w : World) (decimals : ℕ) (wallet : String) :
    List Ev × Option Dec :=
  if w.checksumOk w.token then
    if w.checksumOk wallet then
      ([Ev.callBalanceOf wallet], (w.balanceOf wallet).map (fun raw => convert decimals raw))
    else ([], none)
  else ([], none)

/-- Result of the per-address loop: events, printed lines, final
accumulator, and the error that aborted the loop, if any. -/
structure LoopResult where
  trace : List Ev
  out : List String
  total : Dec
  err : Option Err
deriving DecidableEq

/-- The per-address loop of `main` (main.py lines 104-107): for each
address, fetch and convert the balance, add it to the running total, and
print the line; the first failure aborts the loop with nothing further
printed. -/
def processAddrs (w : World) (decimals : ℕ) (symbol : String) (total : Dec) :
    List String → LoopResult
  | [] => ⟨[], [], total, none⟩
  | a :: rest =>
      match fetch_balance w decimals a with
      | (evs, none) => ⟨evs, [], total, some (Err.addrFail a)⟩
      | (evs, some bal) =>
          let t := Dec.add total bal
          let r := processAddrs w decimals symbol t rest
          ⟨evs ++ r.trace, fmtLine a bal symbol :: r.out, r.total, r.err⟩

/-- Result of a whole run: events, printed lines, terminating error. -/
structure RunResult where
  trace : List Ev
  out : List String
  err : Option Err
deriving DecidableEq

/-- `main` (main.py lines 79-109): read the configuration, construct the
client, verify connectivity, checksum the token, fetch `decimals` and
`symbol` once, read the address file, run the per-address loop from a zero
total, and print the total line on success. -/
def mainRun (w : World) : RunResult :=
  match get_rpc_url w.rpcUrl with
  | .error e => ⟨[], [], some e⟩
  | .ok _ =>
      let tr := [Ev.constructClient, Ev.checkConnect]
      if !w.connected then ⟨tr, [], some .connectFailed⟩
      else if !w.checksumOk w.token then ⟨tr, [], some (.addrFail w.token)⟩
      else
        let decimals := w.decimals
        let symbol := w.symbol
        let tr2 := tr ++ [Ev.callDecimals, Ev.callSymbol, Ev.readFile]
        if !w.fileExists then ⟨tr2, [], some .fileNotFound⟩
        else
          let r := processAddrs w decimals symbol (Dec.ofNat 0) (read_addresses w.fileLines)
          match r.err with
          | some e => ⟨tr2 ++ r.trace, r.out, some e⟩
          | none => ⟨tr2 ++ r.trace, r.out ++ [totalLine r.total symbol], none⟩

/-- Balance oracle for the small concrete runs: `0xA` holds `1500000`
raw units, every other wallet `250000`. -/
def fHappy : String → ℕ := fun a => if a = "0xA" then 1500000 else 250000

/-- Balance oracle with a balance that does not fit in 40 significant
digits: `0xA` holds `10^40` raw units, every other wallet `1`. -/
def fBig : String → ℕ := fun a => if a = "0xA" then 10 ^ 40 else 1

/-- A fully working environment with two listed wallets. -/
def wHappy : World :=
  ⟨some "http://rpc.example", true, "0xToken", fun _ => true, 6, "ITX", true,
    ["0xA", "# comment", "", "0xB"], fun a => some (fHappy a)⟩

/-- A working environment whose balances overflow 40 significant digits
when summed. -/
def wBig : World :=
  ⟨some "http://rpc.example", true, "0xToken", fun _ => true, 0, "ITX", true,
    ["0xA", "0xB"], fun a => some (fBig a)⟩

/-- A working environment whose address file does not exist. -/
def wNoFile : World :=
  ⟨some "http://rpc.example", true, "0xToken", fun _ => true, 18, "ITX", false,
    [], fun _ => none⟩

/-- An environment with the RPC endpoint variable unset. -/
def wNoEnv : World :=
  ⟨none, true, "0xToken", fun _ => true, 18, "ITX", true, ["0xA"], fun _ => some 1⟩

/-- A working environment whose address file holds only comment and blank
lines. -/
def wEmptyFile : World :=
  ⟨some "http://rpc.example", true, "0xToken", fun _ => true, 18, "ITX", true,
    ["# comments only", "", "   "], fun _ => some 1⟩

/-- A working environment where the `balanceOf` call for the second wallet
fails. -/
def wFailMid : World :=
  ⟨some "http://rpc.example", true, "0xToken", fun _ => true, 6, "ITX", true,
    ["0xA", "0xB", "0xC"], fun a => if a = "0xB" then none else some (fHappy a)⟩

/-! ## Digit counting -/

theorem digitCountFuel_pos (f n : ℕ) : 1 ≤ digitCountFuel f n := by
  cases f with
  | zero => simp [digitCountFuel]
  | succ f =>
      simp only [digitCountFuel]
      split
      · exact le_refl 1
      · omega

theorem digitCountFuel_spec :
    ∀ f n : ℕ, n ≤ f →
      n < 10 ^ digitCountFuel (f + 1) n ∧
        (1 ≤ n → 10 ^ (digitCountFuel (f + 1) n - 1) ≤ n) := by
  intro f
  induction f with
  | zero =>
      intro n hn
      have hn0 : n = 0 := by omega
      subst hn0
      refine ⟨by simp [digitCountFuel], by omega⟩
  | succ f ih =>
      intro n hn
      by_cases h10 : n < 10
      · have h1 : digitCountFuel (f + 1 + 1) n = 1 := by
          simp [digitCountFuel, h10]
        rw [h1]
        exact ⟨by simpa using h10, fun h => by simpa using h⟩
      · push_neg at h10
        have hrec : digitCountFuel (f + 1 + 1) n = digitCountFuel (f + 1) (n / 10) + 1 := by
          simp [digitCountFuel, Nat.not_lt.2 h10]
        have hle : n / 10 ≤ f := by omega
        obtain ⟨h1, h2⟩ := ih (n / 10) hle
        rw [hrec]
        constructor
        · have hstep : n / 10 + 1 ≤ 10 ^ digitCountFuel (f + 1) (n / 10) := h1
          calc n < (n / 10 + 1) * 10 := by omega
            _ ≤ 10 ^ digitCountFuel (f + 1) (n / 10) * 10 :=
                Nat.mul_le_mul_right 10 hstep
            _ = 10 ^ (digitCountFuel (f + 1) (n / 10) + 1) := by rw [pow_succ]
        · intro _
          have h1n : 1 ≤ n / 10 := by omega
          have h2' := h2 h1n
          have hkpos : 1 ≤ digitCountFuel (f + 1) (n / 10) := digitCountFuel_pos _ _
          have hsplit : 10 ^ digitCountFuel (f + 1) (n / 10) =
              10 * 10 ^ (digitCountFuel (f + 1) (n / 10) - 1) := by
            conv_lhs => rw [show digitCountFuel (f + 1) (n / 10) =
              (digitCountFuel (f + 1) (n / 10) - 1) + 1 from by omega]
            rw [pow_succ]
            ring
          calc 10 ^ (digitCountFuel (f + 1) (n / 10) + 1 - 1)
              = 10 * 10 ^ (digitCountFuel (f + 1) (n / 10) - 1) := by
                rw [Nat.add_sub_cancel]; exact hsplit
            _ ≤ 10 * (n / 10) := Nat.mul_le_mul_left 10 h2'
            _ ≤ n := by omega

theorem digitCount_lt_pow (n : ℕ) : n < 10 ^ digitCount n :=
  (digitCountFuel_spec n n le_rfl).1

theorem pow_digitCount_pred_le (n : ℕ) (hn : 1 ≤ n) : 10 ^ (digitCount n - 1) ≤ n :=
  (digitCountFuel_spec n n le_rfl).2 hn

theorem digitCount_le_of_lt {n k : ℕ} (hk : 1 ≤ k) (h : n < 10 ^ k) : digitCount n ≤ k := by
  by_contra hgt
  push_neg at hgt
  have h1 : 1 ≤ n := by
    rcases Nat.eq_zero_or_pos n with h0 | h0
    · subst h0
      have : digitCount 0 = 1 := by simp [digitCount, digitCountFuel]
      omega
    · exact h0
  have hlow := pow_digitCount_pred_le n h1
  have hle : 10 ^ k ≤ 10 ^ (digitCount n - 1) :=
    Nat.pow_le_pow_right (by norm_num) (by omega)
  omega

theorem lt_pow_of_digitCount_le {n k : ℕ} (h : digitCount n ≤ k) : n < 10 ^ k :=
  lt_of_lt_of_le (digitCount_lt_pow n) (Nat.pow_le_pow_right (by norm_num) h)

/-! ## Exactness of the decimal operations within 40 significant digits -/

theorem round40_eq_self {x : Dec} (h : x.c.natAbs < 10 ^ 40) : round40 x = x := by
  unfold round40
  rw [if_pos (digitCount_le_of_lt (by norm_num) h)]

theorem convert_eq_of_lt {raw : ℕ} (d : ℕ) (h : raw < 10 ^ 40) :
    convert d raw = ⟨(raw : ℤ), -(d : ℤ)⟩ := by
  unfold convert Dec.divPow10 Dec.ofNat
  rw [round40_eq_self (by simpa using h)]
  congr 1
  simp

theorem val_mk (c e : ℤ) : Dec.val ⟨c, e⟩ = (c : ℚ) * 10 ^ e := rfl

theorem val_negd (m : ℕ) (d : ℕ) : Dec.val ⟨(m : ℤ), -(d : ℤ)⟩ = (m : ℚ) / 10 ^ d := by
  rw [val_mk, zpow_neg, zpow_natCast, div_eq_mul_inv]
  norm_cast

theorem add_same_exp (s r e : ℤ) (h : (s + r).natAbs < 10 ^ 40) :
    Dec.add ⟨s, e⟩ ⟨r, e⟩ = ⟨s + r, e⟩ := by
  unfold Dec.add
  simp only [ite_self, sub_self, Int.toNat_zero, pow_zero, mul_one]
  apply round40_eq_self
  simpa using h

theorem add_zero_left (r e : ℤ) (hr : r.natAbs < 10 ^ 40) (he : e ≤ 0) :
    Dec.add ⟨0, 0⟩ ⟨r, e⟩ = ⟨r, e⟩ := by
  rcases he.lt_or_eq with he0 | he0
  · unfold Dec.add
    have h1 : ¬ ((0 : ℤ) ≤ e) := not_le.2 he0
    simp only
    rw [if_neg h1]
    simp only [zero_mul, zero_add, sub_self, Int.toNat_zero, pow_zero, mul_one]
    apply round40_eq_self
    simpa using hr
  · subst he0
    rw [add_same_exp 0 r 0 (by simpa using hr), zero_add]

/-! ## The per-address loop -/

theorem fetch_balance_some (w : World) (d : ℕ) (a : String) (r : ℕ)
    (htok : w.checksumOk w.token = true) (hca : w.checksumOk a = true)
    (hba : w.balanceOf a = some r) :
    fetch_balance w d a = ([Ev.callBalanceOf a], some (convert d r)) := by
  simp [fetch_balance, htok, hca, hba]

theorem fetch_balance_none (w : World) (d : ℕ) (a : String)
    (h : w.checksumOk a = false ∨ w.balanceOf a = none) :
    (fetch_balance w d a).2 = none := by
  rcases h with h | h
  · by_cases ht : w.checksumOk w.token <;> simp [fetch_balance, ht, h]
  · by_cases ht : w.checksumOk w.token <;> by_cases ha : w.checksumOk a <;>
      simp [fetch_balance, ht, ha, h]

theorem processAddrs_success (w : World) (d : ℕ) (sym : String) (f : String → ℕ)
    (htok : w.checksumOk w.token = true) :
    ∀ (addrs : List String) (t : Dec),
      (∀ a ∈ addrs, w.checksumOk a = true) →
      (∀ a ∈ addrs, w.balanceOf a = some (f a)) →
      processAddrs w d sym t addrs =
        ⟨addrs.map Ev.callBalanceOf,
         addrs.map (fun a => fmtLine a (convert d (f a)) sym),
         addrs.foldl (fun acc a => Dec.add acc (convert d (f a))) t,
         none⟩ := by
  intro addrs
  induction addrs with
  | nil => intro t _ _; rfl
  | cons a rest ih =>
      intro t hca hba
      have hfb := fetch_balance_some w d a (f a) htok (hca a (by simp)) (hba a (by simp))
      simp only [processAddrs, hfb]
      rw [ih (Dec.add t (convert d (f a))) (fun b hb => hca b (by simp [hb]))
        (fun b hb => hba b (by simp [hb]))]
      simp

theorem processAddrs_failAt (w : World) (d : ℕ) (sym : String) (f : String → ℕ)
    (htok : w.checksumOk w.token = true) :
    ∀ (pre : List String) (a : String) (post : List String) (t : Dec),
      (∀ b ∈ pre, w.checksumOk b = true) →
      (∀ b ∈ pre, w.balanceOf b = some (f b)) →
      (w.checksumOk a = false ∨ w.balanceOf a = none) →
      (processAddrs w d sym t (pre ++ a :: post)).out
          = pre.map (fun b => fmtLine b (convert d (f b)) sym)
        ∧ (processAddrs w d sym t (pre ++ a :: post)).err = some (Err.addrFail a) := by
  intro pre
  induction pre with
  | nil =>
      intro a post t _ _ hfail
      have h2 : (fetch_balance w d a).2 = none := fetch_balance_none w d a hfail
      rcases hfb : fetch_balance w d a with ⟨evs, res⟩
      have hres : res = none := by rw [← h2, hfb]
      subst hres
      simp only [List.nil_append, processAddrs, hfb]
      simp
  | cons b pre ih =>
      intro a post t hcb hbb hfail
      have hfb := fetch_balance_some w d b (f b) htok (hcb b (by simp)) (hbb b (by simp))
      simp only [List.cons_append, processAddrs, hfb]
      obtain ⟨hout, herr⟩ := ih a post (Dec.add t (convert d (f b)))
        (fun x hx => hcb x (by simp [hx])) (fun x hx => hbb x (by simp [hx])) hfail
      exact ⟨by simp [hout], by simpa using herr⟩

/-! ## Control flow of `main` -/

theorem mainRun_env (w : World) (h : w.rpcUrl = none ∨ w.rpcUrl = some "") :
    mainRun w = ⟨[], [], some Err.envMissing⟩ := by
  rcases h with h | h <;> simp [mainRun, get_rpc_url, h]

theorem mainRun_fileMissing (w : World) (u : String) (hu : w.rpcUrl = some u)
    (hu' : u ≠ "") (hc : w.connected = true) (htok : w.checksumOk w.token = true)
    (hfe : w.fileExists = false) :
    mainRun w = ⟨[Ev.constructClient, Ev.checkConnect, Ev.callDecimals, Ev.callSymbol,
      Ev.readFile], [], some Err.fileNotFound⟩ := by
  simp [mainRun, get_rpc_url, hu, hu', hc, htok, hfe]

theorem mainRun_ok (w : World) (u : String) (hu : w.rpcUrl = some u) (hu' : u ≠ "")
    (hc : w.connected = true) (htok : w.checksumOk w.token = true)
    (hfe : w.fileExists = true) (lr : LoopResult)
    (hlr : processAddrs w w.decimals w.symbol (Dec.ofNat 0) (read_addresses w.fileLines) = lr)
    (hok : lr.err = none) :
    mainRun w = ⟨[Ev.constructClient, Ev.checkConnect, Ev.callDecimals, Ev.callSymbol,
        Ev.readFile] ++ lr.trace, lr.out ++ [totalLine lr.total w.symbol], none⟩ := by
  simp [mainRun, get_rpc_url, hu, hu', hc, htok, hfe, hlr, hok]

theorem mainRun_errLoop (w : World) (u : String) (hu : w.rpcUrl = some u) (hu' : u ≠ "")
    (hc : w.connected = true) (htok : w.checksumOk w.token = true)
    (hfe : w.fileExists = true) (lr : LoopResult) (e : Err)
    (hlr : processAddrs w w.decimals w.symbol (Dec.ofNat 0) (read_addresses w.fileLines) = lr)
    (herr : lr.err = some e) :
    mainRun w = ⟨[Ev.constructClient, Ev.checkConnect, Ev.callDecimals, Ev.callSymbol,
        Ev.readFile] ++ lr.trace, lr.out, some e⟩ := by
  simp [mainRun, get_rpc_url, hu, hu', hc, htok, hfe, hlr, herr]

/-! ## The running total is exact within 40 significant digits -/

theorem foldl_add_exact (d : ℕ) :
    ∀ (raws : List ℕ) (s : ℕ), s + raws.sum < 10 ^ 40 →
      raws.foldl (fun acc r => Dec.add acc (convert d r)) ⟨(s : ℤ), -(d : ℤ)⟩
        = ⟨((s + raws.sum : ℕ) : ℤ), -(d : ℤ)⟩ := by
  intro raws
  induction raws with
  | nil => intro s h; simp
  | cons r rest ih =>
      intro s h
      have hsum : r + rest.sum = (r :: rest).sum := by simp
      have hr : r < 10 ^ 40 := by
        have := List.sum_cons (a := r) (l := rest)
        omega
      simp only [List.foldl_cons, convert_eq_of_lt d hr]
      rw [add_same_exp _ _ _ (by omega)]
      rw [show ((s : ℤ) + (r : ℤ)) = ((s + r : ℕ) : ℤ) from by push_cast; ring]
      rw [ih (s + r) (by have := List.sum_cons (a := r) (l := rest); omega)]
      congr 1
      have := List.sum_cons (a := r) (l := rest)
      omega

theorem foldl_add_from_zero (d : ℕ) (raws : List ℕ) (h : raws.sum < 10 ^ 40) :
    Dec.val (raws.foldl (fun acc r => Dec.add acc (convert d r)) (Dec.ofNat 0))
      = ((raws.sum : ℕ) : ℚ) / 10 ^ d := by
  cases raws with
  | nil => simp [Dec.ofNat, Dec.val]
  | cons r rest =>
      have hr : r < 10 ^ 40 := by
        have := List.sum_cons (a := r) (l := rest)
        omega
      simp only [List.foldl_cons, convert_eq_of_lt d hr, Dec.ofNat, Nat.cast_zero]
      rw [add_zero_left (r : ℤ) (-(d : ℤ)) (by omega) (by omega)]
      rw [foldl_add_exact d rest r (by have := List.sum_cons (a := r) (l := rest); omega)]
      rw [val_negd]
      norm_num

theorem sum_val_convert (d : ℕ) :
    ∀ raws : List ℕ, (∀ r ∈ raws, r < 10 ^ 40) →
      (raws.map (fun r => Dec.val (convert d r))).sum = ((raws.sum : ℕ) : ℚ) / 10 ^ d := by
  intro raws
  induction raws with
  | nil => intro _; simp
  | cons r rest ih =>
      intro hb
      simp only [List.map_cons, List.sum_cons]
      rw [convert_eq_of_lt d (hb r (by simp)), val_negd,
        ih (fun x hx => hb x (by simp [hx]))]
      push_cast
      ring

/-! ## Round-half-even, analysed -/

theorem halfEvenDivNat_spec (n m : ℕ) (hm : 0 < m) :
    |(n : ℚ) / m - (halfEvenDivNat n m : ℚ)| ≤ 1 / 2
    ∧ (2 * (n % m) = m → halfEvenDivNat n m % 2 = 0) := by
  have hmQ : (0 : ℚ) < m := by exact_mod_cast hm
  have hn : (n : ℚ) = (n / m : ℕ) * m + (n % m : ℕ) := by
    exact_mod_cast (Nat.div_add_mod' n m).symm
  have hfrac : (n : ℚ) / m - (n / m : ℕ) = (n % m : ℕ) / m := by
    rw [hn, add_div, mul_div_cancel_right₀ _ (ne_of_gt hmQ)]
    ring
  have hr_nonneg : (0 : ℚ) ≤ (n % m : ℕ) / m := by positivity
  have hr_lt : (n % m : ℕ) / (m : ℚ) < 1 := by
    rw [div_lt_one hmQ]
    exact_mod_cast Nat.mod_lt n hm
  rcases lt_trichotomy (2 * (n % m)) m with hcase | hcase | hcase
  · have hres : halfEvenDivNat n m = n / m := by
      unfold halfEvenDivNat
      rw [if_pos hcase]
    have hlt : (n % m : ℕ) / (m : ℚ) < 1 / 2 := by
      rw [div_lt_iff hmQ]
      have h2 : ((2 * (n % m) : ℕ) : ℚ) < m := by exact_mod_cast hcase
      push_cast at h2
      linarith
    constructor
    · rw [hres, hfrac, abs_of_nonneg hr_nonneg]
      linarith
    · intro htie
      omega
  · have hhalf : (n % m : ℕ) / (m : ℚ) = 1 / 2 := by
      rw [div_eq_iff (ne_of_gt hmQ)]
      have h2 : ((2 * (n % m) : ℕ) : ℚ) = m := by exact_mod_cast hcase
      push_cast at h2
      linarith
    have hnot1 : ¬ (2 * (n % m) < m) := by omega
    have hnot2 : ¬ (m < 2 * (n % m)) := by omega
    constructor
    · by_cases hq : (n / m) % 2 = 0
      · have hres : halfEvenDivNat n m = n / m := by
          unfold halfEvenDivNat
          rw [if_neg hnot1, if_neg hnot2, if_pos hq]
        rw [hres, hfrac, abs_of_nonneg hr_nonneg, hhalf]
      · have hres : halfEvenDivNat n m = n / m + 1 := by
          unfold halfEvenDivNat
          rw [if_neg hnot1, if_neg hnot2, if_neg hq]
        rw [hres]
        rw [abs_le]
        push_cast
        constructor <;> linarith [hfrac, hhalf]
    · intro _
      by_cases hq : (n / m) % 2 = 0
      · have hres : halfEvenDivNat n m = n / m := by
          unfold halfEvenDivNat
          rw [if_neg hnot1, if_neg hnot2, if_pos hq]
        omega
      · have hres : halfEvenDivNat n m = n / m + 1 := by
          unfold halfEvenDivNat
          rw [if_neg hnot1, if_neg hnot2, if_neg hq]
        omega
  · have hres : halfEvenDivNat n m = n / m + 1 := by
      unfold halfEvenDivNat
      rw [if_neg (by omega), if_pos hcase]
    have hgt : 1 / 2 < (n % m : ℕ) / (m : ℚ) := by
      rw [lt_div_iff hmQ]
      have h2 : (m : ℚ) < ((2 * (n % m) : ℕ) : ℚ) := by exact_mod_cast hcase
      push_cast at h2
      linarith
    constructor
    · rw [hres]
      rw [abs_le]
      push_cast
      constructor <;> linarith [hfrac]
    · intro htie
      omega

theorem fract_div_natCast (n m : ℕ) (hm : 0 < m) :
    Int.fract ((n : ℚ) / m) = (n % m : ℕ) / m := by
  have hmQ : (0 : ℚ) < m := by exact_mod_cast hm
  have hn : (n : ℚ) = (n / m : ℕ) * m + (n % m : ℕ) := by
    exact_mod_cast (Nat.div_add_mod' n m).symm
  have hdecomp : (n : ℚ) / m = ((n / m : ℕ) : ℤ) + (n % m : ℕ) / m := by
    rw [hn, add_div, mul_div_cancel_right₀ _ (ne_of_gt hmQ)]
    norm_cast
  rw [hdecomp, Int.fract_int_add, Int.fract_eq_self.2]
  constructor
  · positivity
  · rw [div_lt_one hmQ]
    exact_mod_cast Nat.mod_lt n hm

theorem halfEvenDivPow10_spec (c : ℤ) (k : ℕ) :
    |(c : ℚ) / 10 ^ k - (halfEvenDivPow10 c k : ℚ)| ≤ 1 / 2
    ∧ (Int.fract ((c : ℚ) / 10 ^ k) = 1 / 2 → halfEvenDivPow10 c k % 2 = 0) := by
  have hm : 0 < 10 ^ k := pow_pos (by norm_num) k
  by_cases hc : 0 ≤ c
  · obtain ⟨n, rfl⟩ : ∃ n : ℕ, c = (n : ℤ) := ⟨c.toNat, (Int.toNat_of_nonneg hc).symm⟩
    have h := halfEvenDivNat_spec n (10 ^ k) hm
    have hres : halfEvenDivPow10 (n : ℤ) k = (halfEvenDivNat n (10 ^ k) : ℤ) := by
      unfold halfEvenDivPow10
      rw [if_pos (Int.natCast_nonneg n)]
      simp
    constructor
    · rw [hres]
      have hA : ((n : ℤ) : ℚ) / 10 ^ k - (((halfEvenDivNat n (10 ^ k) : ℕ) : ℤ) : ℚ)
          = (n : ℚ) / ((10 ^ k : ℕ) : ℚ) - ((halfEvenDivNat n (10 ^ k) : ℕ) : ℚ) := by
        push_cast
        ring
      rw [hA]
      exact h.1
    · intro htie
      have hval : ((n : ℤ) : ℚ) / (10 : ℚ) ^ k = (n : ℚ) / ((10 ^ k : ℕ) : ℚ) := by
        push_cast
        ring
      rw [hval, fract_div_natCast n (10 ^ k) hm] at htie
      rw [div_eq_iff (by positivity)] at htie
      have h2 : 2 * (n % 10 ^ k) = 10 ^ k := by
        have hQ : ((2 * (n % 10 ^ k) : ℕ) : ℚ) = ((10 ^ k : ℕ) : ℚ) := by
          push_cast at htie ⊢
          linarith
        exact_mod_cast hQ
      have := h.2 h2
      rw [hres]
      omega
  · push_neg at hc
    obtain ⟨n, rfl⟩ : ∃ n : ℕ, c = -(n : ℤ) := ⟨(-c).toNat, by omega⟩
    have h := halfEvenDivNat_spec n (10 ^ k) hm
    have hres : halfEvenDivPow10 (-(n : ℤ)) k = -(halfEvenDivNat n (10 ^ k) : ℤ) := by
      unfold halfEvenDivPow10
      rw [if_neg (by omega)]
      simp
    constructor
    · rw [hres]
      have hA : ((-(n : ℤ) : ℤ) : ℚ) / 10 ^ k - ((-(halfEvenDivNat n (10 ^ k) : ℤ) : ℤ) : ℚ)
          = -((n : ℚ) / ((10 ^ k : ℕ) : ℚ) - ((halfEvenDivNat n (10 ^ k) : ℕ) : ℚ)) := by
        push_cast
        ring
      rw [hA, abs_neg]
      exact h.1
    · intro htie
      have hval : ((-(n : ℤ) : ℤ) : ℚ) / (10 : ℚ) ^ k = -((n : ℚ) / ((10 ^ k : ℕ) : ℚ)) := by
        push_cast
        ring
      rw [hval] at htie
      by_cases h0 : Int.fract ((n : ℚ) / ((10 ^ k : ℕ) : ℚ)) = 0
      · exfalso
        rw [Int.fract_neg_eq_zero.2 h0] at htie
        norm_num at htie
      · rw [Int.fract_neg h0] at htie
        have hfr2 : Int.fract ((n : ℚ) / ((10 ^ k : ℕ) : ℚ)) = 1 / 2 := by linarith
        rw [fract_div_natCast n (10 ^ k) hm] at hfr2
        rw [div_eq_iff (by positivity)] at hfr2
        have h2 : 2 * (n % 10 ^ k) = 10 ^ k := by
          have hQ : ((2 * (n % 10 ^ k) : ℕ) : ℚ) = ((10 ^ k : ℕ) : ℚ) := by
            push_cast at hfr2 ⊢
            linarith
          exact_mod_cast hQ
        have := h.2 h2
        rw [hres]
        omega

theorem quantize4_spec (x : Dec) :
    |Dec.val x * 10 ^ 4 - (quantize4 x : ℚ)| ≤ 1 / 2
    ∧ (Int.fract (Dec.val x * 10 ^ 4) = 1 / 2 → quantize4 x % 2 = 0) := by
  by_cases he : 0 ≤ x.e + 4
  · have hvt : ((x.e + 4).toNat : ℤ) = x.e + 4 := Int.toNat_of_nonneg he
    have hq : quantize4 x = x.c * 10 ^ (x.e + 4).toNat := by
      unfold quantize4
      rw [if_pos he]
    have hval : Dec.val x * 10 ^ 4 = ((x.c * 10 ^ (x.e + 4).toNat : ℤ) : ℚ) := by
      unfold Dec.val
      push_cast
      rw [← zpow_natCast (10 : ℚ) (x.e + 4).toNat, hvt]
      rw [show (10 : ℚ) ^ (4 : ℕ) = (10 : ℚ) ^ ((4 : ℕ) : ℤ) from (zpow_natCast _ _).symm]
      rw [mul_assoc, ← zpow_add₀ (by norm_num : (10 : ℚ) ≠ 0)]
      norm_num
    constructor
    · rw [hval, hq]
      simp
    · intro htie
      rw [hval, Int.fract_intCast] at htie
      norm_num at htie
  · push_neg at he
    have hq : quantize4 x = halfEvenDivPow10 x.c (-(x.e + 4)).toNat := by
      unfold quantize4
      rw [if_neg (not_le.2 he)]
    have hk : ((-(x.e + 4)).toNat : ℤ) = -(x.e + 4) := Int.toNat_of_nonneg (by omega)
    have hval : Dec.val x * 10 ^ 4 = (x.c : ℚ) / 10 ^ (-(x.e + 4)).toNat := by
      unfold Dec.val
      rw [div_eq_mul_inv, ← zpow_natCast (10 : ℚ) (-(x.e + 4)).toNat, hk]
      rw [show (10 : ℚ) ^ (4 : ℕ) = (10 : ℚ) ^ ((4 : ℕ) : ℤ) from (zpow_natCast _ _).symm]
      rw [mul_assoc, ← zpow_add₀ (by norm_num : (10 : ℚ) ≠ 0), ← zpow_neg]
      norm_num
    rw [hval, hq]
    exact halfEvenDivPow10_spec x.c (-(x.e + 4)).toNat

/-! ## Remaining helper facts -/

theorem round40_val_nonneg (c e : ℤ) (hc : 0 ≤ c) : 0 ≤ Dec.val (round40 ⟨c, e⟩) := by
  unfold round40
  split
  · unfold Dec.val
    apply mul_nonneg (by exact_mod_cast hc)
    positivity
  · unfold Dec.val
    apply mul_nonneg
    · have h : 0 ≤ halfEvenDivPow10 (⟨c, e⟩ : Dec).c (digitCount (⟨c, e⟩ : Dec).c.natAbs - 40) := by
        unfold halfEvenDivPow10
        rw [if_pos hc]
        exact Int.natCast_nonneg _
      exact_mod_cast h
    · positivity

/-! ## The claims -/

/-- C2: for every address file, the reader returns exactly the lines that
are non-empty and non-comment (the raw line does not start with `#`), each
stripped of surrounding whitespace, in original file order; blank lines
and comment lines never contribute an entry.  `readAddressesSpec` is the
spec's description of the reader, and it agrees with the implementation on
every input. -/
theorem c2_reader_spec (lines : List String) :
    read_addresses lines = readAddressesSpec lines := by
  induction lines with
  | nil => rfl
  | cons l rest ih =>
      simp only [read_addresses, readAddressesSpec, List.filter_cons] at ih ⊢
      by_cases h1 : pyStrip l = ""
      · simp [h1, ih]
      · by_cases h2 : pyStartsWith l "#" = true
        · simp [h1, h2, ih]
        · simp [h1, h2, ih]

/-- C7: if the RPC endpoint environment variable is unset or empty, the
run terminates with the configuration error with an empty event trace (so
before any client construction or network call) and no output; otherwise
`get_rpc_url` returns the configured URL unchanged. -/
theorem c7_rpc_url_required (w : World) :
    ((w.rpcUrl = none ∨ w.rpcUrl = some "") →
        mainRun w = ⟨[], [], some Err.envMissing⟩)
    ∧ (∀ u : String, u ≠ "" → get_rpc_url (some u) = Except.ok u) := by
  refine ⟨fun h => mainRun_env w h, fun u hu => ?_⟩
  simp [get_rpc_url, hu]

/-- Witness for C7 at a concrete unset environment and a concrete URL. -/
theorem c7_witness :
    mainRun wNoEnv = ⟨[], [], some Err.envMissing⟩
    ∧ get_rpc_url (some "http://rpc.example") = Except.ok "http://rpc.example" :=
  ⟨(c7_rpc_url_required wNoEnv).1 (Or.inl rfl),
   (c7_rpc_url_required wNoEnv).2 "http://rpc.example" (by decide)⟩

/-- C10: the conversion is total and safe — for every decimals value the
divisor `10^decimals` is at least 1 (hence nonzero, so the division never
divides by zero), and the converted balance of any raw value is a
well-defined nonnegative decimal. -/
theorem c10_convert_total_safe (decimals raw : ℕ) :
    (1 : ℚ) ≤ 10 ^ decimals ∧ ((10 : ℚ) ^ decimals ≠ 0)
    ∧ 0 ≤ Dec.val (convert decimals raw) := by
  refine ⟨?_, by positivity, ?_⟩
  · calc (1 : ℚ) = 1 ^ decimals := (one_pow _).symm
      _ ≤ 10 ^ decimals := pow_le_pow_left (by norm_num) (by norm_num) _
  · unfold convert Dec.divPow10 Dec.ofNat
    exact round40_val_nonneg _ _ (Int.natCast_nonneg raw)

/-- C5 counterexample: at `decimals = 0` and the uint256 balance
`10^40 + 1`, the converter does not return `raw / 10^decimals`: the
41-digit result is rounded to the 40-significant-digit context precision,
so the returned value is `10^40`, not `10^40 + 1`. -/
theorem c5_counterexample :
    Dec.val (convert 0 (10 ^ 40 + 1)) ≠ ((10 ^ 40 + 1 : ℕ) : ℚ) / 10 ^ (0 : ℕ) := by
  have hconv : convert 0 (10 ^ 40 + 1) = ⟨10 ^ 39, 1⟩ := by decide
  have hval : Dec.val ⟨10 ^ 39, 1⟩ = 10 ^ 40 := by
    unfold Dec.val
    norm_num [zpow_one]
  rw [hconv, hval]
  norm_num

/-- C5 (amended): for every raw balance below `10^40` (the context
precision of 40 significant digits) and every decimals value, the
converter returns exactly `raw / 10^decimals`, and at `decimals = 0` it
returns the raw integer unchanged; raw values of 41 or more significant
digits are instead rounded to 40 significant digits. -/
theorem c5_convert_exact (raw d : ℕ) (h : raw < 10 ^ 40) :
    Dec.val (convert d raw) = (raw : ℚ) / 10 ^ d ∧ convert 0 raw = Dec.ofNat raw := by
  constructor
  · rw [convert_eq_of_lt d h, val_negd]
  · rw [convert_eq_of_lt 0 h]
    simp [Dec.ofNat]

/-- Witness for C5 at the spec's own example, `convert(1500000, 6) = 1.5`. -/
theorem c5_witness :
    Dec.val (convert 6 1500000) = (1500000 : ℚ) / 10 ^ 6
    ∧ convert 0 1500000 = Dec.ofNat 1500000 :=
  ⟨(c5_convert_exact 1500000 6 (by norm_num)).1,
   (c5_convert_exact 1500000 0 (by norm_num)).2⟩

/-- C1 counterexample: with the address file missing but the rest of the
environment fine, the run does fail with the file-not-found error, but the
RPC client has already been constructed and the connectivity check and
both metadata calls have already happened — refuting the claim that the
failure precedes client construction. -/
theorem c1_counterexample :
    (mainRun wNoFile).err = some Err.fileNotFound
    ∧ Ev.constructClient ∈ (mainRun wNoFile).trace
    ∧ Ev.checkConnect ∈ (mainRun wNoFile).trace
    ∧ Ev.callDecimals ∈ (mainRun wNoFile).trace
    ∧ Ev.callSymbol ∈ (mainRun wNoFile).trace := by
  refine ⟨by decide, by decide, by decide, by decide, by decide⟩

/-- C1 (amended): if the address file path does not exist, the program
fails with a file-not-found error before any `balanceOf` call and before
printing anything — but after the RPC client is constructed, connectivity
is checked, and the token metadata is fetched. -/
theorem c1_file_missing_after_metadata (w : World) (u : String)
    (hu : w.rpcUrl = some u) (hu' : u ≠ "") (hc : w.connected = true)
    (htok : w.checksumOk w.token = true) (hfe : w.fileExists = false) :
    (mainRun w).err = some Err.fileNotFound
    ∧ (mainRun w).out = []
    ∧ (mainRun w).trace = [Ev.constructClient, Ev.checkConnect, Ev.callDecimals,
        Ev.callSymbol, Ev.readFile]
    ∧ ∀ a, Ev.callBalanceOf a ∉ (mainRun w).trace := by
  rw [mainRun_fileMissing w u hu hu' hc htok hfe]
  refine ⟨rfl, rfl, rfl, ?_⟩
  intro a
  simp

/-- Witness for C1 (amended) at the concrete missing-file environment. -/
theorem c1_witness :
    (mainRun wNoFile).err = some Err.fileNotFound
    ∧ (mainRun wNoFile).out = []
    ∧ (mainRun wNoFile).trace = [Ev.constructClient, Ev.checkConnect, Ev.callDecimals,
        Ev.callSymbol, Ev.readFile]
    ∧ ∀ a, Ev.callBalanceOf a ∉ (mainRun wNoFile).trace :=
  c1_file_missing_after_metadata wNoFile "http://rpc.example" rfl (by decide) rfl rfl rfl

/-- C6: if the `balanceOf` call (or the address normalization) for some
listed address fails, the run halts at that address: the output holds
exactly the per-address lines of the preceding addresses, nothing for the
failing or any later address, and no `Total` line (the run ends in the
per-address error instead of success). -/
theorem c6_fail_fast (w : World) (u : String) (g : String → ℕ)
    (pre post : List String) (a : String)
    (hu : w.rpcUrl = some u) (hu' : u ≠ "") (hc : w.connected = true)
    (htok : w.checksumOk w.token = true) (hfe : w.fileExists = true)
    (hsplit : read_addresses w.fileLines = pre ++ a :: post)
    (hcb : ∀ b ∈ pre, w.checksumOk b = true)
    (hbb : ∀ b ∈ pre, w.balanceOf b = some (g b))
    (hfail : w.checksumOk a = false ∨ w.balanceOf a = none) :
    (mainRun w).out = pre.map (fun b => fmtLine b (convert w.decimals (g b)) w.symbol)
    ∧ (mainRun w).err = some (Err.addrFail a) := by
  obtain ⟨hout, herr⟩ := processAddrs_failAt w w.decimals w.symbol g htok pre a post
    (Dec.ofNat 0) hcb hbb hfail
  have hmain := mainRun_errLoop w u hu hu' hc htok hfe
    (processAddrs w w.decimals w.symbol (Dec.ofNat 0) (pre ++ a :: post))
    (Err.addrFail a) (by rw [hsplit]) herr
  rw [hmain]
  exact ⟨hout, rfl⟩

/-- Witness for C6: the second of three wallets fails, so exactly the
first wallet's line is printed and the run ends in its error. -/
theorem c6_witness :
    (mainRun wFailMid).out
        = ["0xA"].map (fun b => fmtLine b (convert wFailMid.decimals (fHappy b)) wFailMid.symbol)
    ∧ (mainRun wFailMid).err = some (Err.addrFail "0xB") :=
  c6_fail_fast wFailMid "http://rpc.example" fHappy ["0xA"] ["0xC"] "0xB"
    rfl (by decide) rfl rfl rfl (by decide) (by decide) (by decide)
    (Or.inr (by decide))

/-- C9: if the address file exists but holds no non-blank, non-comment
line, the run makes no `balanceOf` call, prints no per-address line, and
prints exactly the one line `Total: 0.0000 <symbol>`. -/
theorem c9_empty_list_total_zero (w : World) (u : String)
    (hu : w.rpcUrl = some u) (hu' : u ≠ "") (hc : w.connected = true)
    (htok : w.checksumOk w.token = true) (hfe : w.fileExists = true)
    (hempty : read_addresses w.fileLines = []) :
    (mainRun w).out = ["Total: 0.0000 " ++ w.symbol]
    ∧ (mainRun w).err = none
    ∧ ∀ a, Ev.callBalanceOf a ∉ (mainRun w).trace := by
  have hlr : processAddrs w w.decimals w.symbol (Dec.ofNat 0) (read_addresses w.fileLines)
      = ⟨[], [], Dec.ofNat 0, none⟩ := by
    rw [hempty]
    rfl
  have hmain := mainRun_ok w u hu hu' hc htok hfe _ hlr rfl
  rw [hmain]
  refine ⟨?_, rfl, fun a => by simp⟩
  have h1 : fmt4 (Dec.ofNat 0) = "0.0000" := by decide
  have h2 : ("Total: " ++ "0.0000" ++ " " : String) = "Total: 0.0000 " := by decide
  simp only [totalLine, h1, h2, List.nil_append]

/-- C8: the token's decimals and symbol are each fetched exactly once per
run, before the per-address loop (their calls precede every `balanceOf`
call in the trace), and the same two fetched values are used for every
address's conversion, every per-address line, and the `Total` line. -/
theorem c8_metadata_once (w : World) (u : String) (f : String → ℕ)
    (hu : w.rpcUrl = some u) (hu' : u ≠ "") (hc : w.connected = true)
    (htok : w.checksumOk w.token = true) (hfe : w.fileExists = true)
    (hca : ∀ a, w.checksumOk a = true) (hba : ∀ a, w.balanceOf a = some (f a)) :
    (mainRun w).trace
        = [Ev.constructClient, Ev.checkConnect, Ev.callDecimals, Ev.callSymbol,
            Ev.readFile] ++ (read_addresses w.fileLines).map Ev.callBalanceOf
    ∧ (mainRun w).trace.count Ev.callDecimals = 1
    ∧ (mainRun w).trace.count Ev.callSymbol = 1
    ∧ (mainRun w).out
        = ((read_addresses w.fileLines).map
            (fun a => fmtLine a (convert w.decimals (f a)) w.symbol))
          ++ [totalLine ((read_addresses w.fileLines).foldl
              (fun acc a => Dec.add acc (convert w.decimals (f a))) (Dec.ofNat 0))
              w.symbol] := by
  have hproc := processAddrs_success w w.decimals w.symbol f htok
    (read_addresses w.fileLines) (Dec.ofNat 0) (fun a _ => hca a) (fun a _ => hba a)
  have hmain := mainRun_ok w u hu hu' hc htok hfe _ hproc rfl
  rw [hmain]
  have hz : ((read_addresses w.fileLines).map Ev.callBalanceOf).count Ev.callDecimals
      = 0 := by
    rw [List.count_eq_zero]
    intro hmem
    obtain ⟨a, _, hEq⟩ := List.mem_map.1 hmem
    simp at hEq
  have hz2 : ((read_addresses w.fileLines).map Ev.callBalanceOf).count Ev.callSymbol
      = 0 := by
    rw [List.count_eq_zero]
    intro hmem
    obtain ⟨a, _, hEq⟩ := List.mem_map.1 hmem
    simp at hEq
  refine ⟨rfl, ?_, ?_, rfl⟩
  · show ([Ev.constructClient, Ev.checkConnect, Ev.callDecimals, Ev.callSymbol,
      Ev.readFile] ++ (read_addresses w.fileLines).map Ev.callBalanceOf).count
      Ev.callDecimals = 1
    rw [List.count_append, hz]
    decide
  · show ([Ev.constructClient, Ev.checkConnect, Ev.callDecimals, Ev.callSymbol,
      Ev.readFile] ++ (read_addresses w.fileLines).map Ev.callBalanceOf).count
      Ev.callSymbol = 1
    rw [List.count_append, hz2]
    decide

/-- Witness for C8 at the concrete two-wallet environment. -/
theorem c8_witness :
    (mainRun wHappy).trace
        = [Ev.constructClient, Ev.checkConnect, Ev.callDecimals, Ev.callSymbol,
            Ev.readFile] ++ (read_addresses wHappy.fileLines).map Ev.callBalanceOf
    ∧ (mainRun wHappy).trace.count Ev.callDecimals = 1
    ∧ (mainRun wHappy).trace.count Ev.callSymbol = 1
    ∧ (mainRun wHappy).out
        = ((read_addresses wHappy.fileLines).map
            (fun a => fmtLine a (convert wHappy.decimals (fHappy a)) wHappy.symbol))
          ++ [totalLine ((read_addresses wHappy.fileLines).foldl
              (fun acc a => Dec.add acc (convert wHappy.decimals (fHappy a)))
              (Dec.ofNat 0)) wHappy.symbol] :=
  c8_metadata_once wHappy "http://rpc.example" fHappy rfl (by decide) rfl rfl rfl
    (fun _ => rfl) (fun _ => rfl)

/-- C4 counterexample: with `decimals = 0` and raw uint256 balances
`10^40` and `1`, the accumulated total is `10^40` (the 41-digit exact sum
is rounded back to 40 significant digits by the `Decimal` addition), while
the exact sum of the two converted balances is `10^40 + 1` — so the
printed total does not equal the exact sum of the per-address converted
balances. -/
theorem c4_counterexample :
    (processAddrs wBig wBig.decimals wBig.symbol (Dec.ofNat 0)
        (read_addresses wBig.fileLines)).total = ⟨10 ^ 39, 1⟩
    ∧ Dec.val ⟨10 ^ 39, 1⟩
        ≠ ((read_addresses wBig.fileLines).map
            (fun a => Dec.val (convert wBig.decimals (fBig a)))).sum := by
  refine ⟨by decide, ?_⟩
  have h2 : read_addresses wBig.fileLines = ["0xA", "0xB"] := by decide
  have h3 : convert wBig.decimals (fBig "0xA") = ⟨10 ^ 39, 1⟩ := by decide
  have h4 : convert wBig.decimals (fBig "0xB") = ⟨1, 0⟩ := by decide
  rw [h2]
  simp only [List.map_cons, List.map_nil, List.sum_cons, List.sum_nil, h3, h4]
  unfold Dec.val
  norm_num [zpow_one]

/-- C4 (amended): for any sequence of addresses with raw uint256 balances
and any decimals value in [0, 30], as long as the raw balances sum to
less than `10^40` (so every intermediate value fits in the 40 significant
digits of the context precision), the printed total is exactly the
mathematical sum, before display rounding, of all per-address converted
balances; when an intermediate result needs more than 40 significant
digits, the `Decimal` addition rounds it and the equality can fail. -/
theorem c4_total_exact_sum (w : World) (u : String) (f : String → ℕ)
    (hu : w.rpcUrl = some u) (hu' : u ≠ "") (hc : w.connected = true)
    (htok : w.checksumOk w.token = true) (hfe : w.fileExists = true)
    (hca : ∀ a, w.checksumOk a = true) (hba : ∀ a, w.balanceOf a = some (f a))
    (hd : w.decimals ≤ 30)
    (hsum : ((read_addresses w.fileLines).map f).sum < 10 ^ 40) :
    ∃ T : Dec,
      (mainRun w).out
          = ((read_addresses w.fileLines).map
              (fun a => fmtLine a (convert w.decimals (f a)) w.symbol))
            ++ [totalLine T w.symbol]
      ∧ Dec.val T
          = ((read_addresses w.fileLines).map
              (fun a => Dec.val (convert w.decimals (f a)))).sum := by
  have hproc := processAddrs_success w w.decimals w.symbol f htok
    (read_addresses w.fileLines) (Dec.ofNat 0) (fun a _ => hca a) (fun a _ => hba a)
  have hmain := mainRun_ok w u hu hu' hc htok hfe _ hproc rfl
  refine ⟨(read_addresses w.fileLines).foldl
      (fun acc a => Dec.add acc (convert w.decimals (f a))) (Dec.ofNat 0), ?_, ?_⟩
  · rw [hmain]
  · have hbound : ∀ r ∈ (read_addresses w.fileLines).map f, r < 10 ^ 40 := by
      intro r hr
      exact lt_of_le_of_lt (List.single_le_sum (fun _ _ => Nat.zero_le _) r hr) hsum
    have h1 : (read_addresses w.fileLines).foldl
        (fun acc a => Dec.add acc (convert w.decimals (f a))) (Dec.ofNat 0)
        = ((read_addresses w.fileLines).map f).foldl
            (fun acc r => Dec.add acc (convert w.decimals r)) (Dec.ofNat 0) := by
      rw [List.foldl_map]
    have h2 : ((read_addresses w.fileLines).map
          (fun a => Dec.val (convert w.decimals (f a))))
        = ((read_addresses w.fileLines).map f).map
            (fun r => Dec.val (convert w.decimals r)) := by
      rw [List.map_map]
      rfl
    rw [h1, foldl_add_from_zero w.decimals _ hsum, h2,
      sum_val_convert w.decimals _ hbound]

/-- Witness for C4 (amended) at the concrete two-wallet environment. -/
theorem c4_witness :
    ∃ T : Dec,
      (mainRun wHappy).out
          = ((read_addresses wHappy.fileLines).map
              (fun a => fmtLine a (convert wHappy.decimals (fHappy a)) wHappy.symbol))
            ++ [totalLine T wHappy.symbol]
      ∧ Dec.val T
          = ((read_addresses wHappy.fileLines).map
              (fun a => Dec.val (convert wHappy.decimals (fHappy a)))).sum :=
  c4_total_exact_sum wHappy "http://rpc.example" fHappy rfl (by decide) rfl rfl rfl
    (fun _ => rfl) (fun _ => rfl) (by decide) (by decide)

/-- C3 counterexample: the balance `1234567.89005` (raw `12345678900500000`
at 10 decimals) displays as `1,234,567.8900`, not `1,234,567.8901`: the
formatter's rounding is round-half-even, not round-half-up. -/
theorem c3_counterexample :
    fmt4 (convert 10 12345678900500000) = "1,234,567.8900"
    ∧ fmt4 (convert 10 12345678900500000) ≠ "1,234,567.8901" := by
  refine ⟨by decide, by decide⟩

/-- C3 (amended): the report printer rounds (never truncates) every
displayed balance and the total to exactly 4 fractional digits, with
round-half-even as the rounding mode: the displayed scaled integer is
within `1/2` of the exact scaled value, an exact half is rounded to the
even neighbour, and the rendered string is the rounded integer (sign,
thousands separators, 4 fractional digits). -/
theorem c3_display_rounds_half_even (x : Dec) :
    |Dec.val x * 10 ^ 4 - (quantize4 x : ℚ)| ≤ 1 / 2
    ∧ (Int.fract (Dec.val x * 10 ^ 4) = 1 / 2 → quantize4 x % 2 = 0)
    ∧ fmt4 x = (if quantize4 x < 0 then "-" ++ natFmt4 (quantize4 x).natAbs
        else natFmt4 (quantize4 x).toNat) :=
  ⟨(quantize4_spec x).1, (quantize4_spec x).2, rfl⟩

/-- Witness for C3 (amended) at the exact-half balance `1234567.89005`:
its scaled value ends in an exact half and the displayed integer is the
even neighbour. -/
theorem c3_witness :
    |Dec.val (convert 10 12345678900500000) * 10 ^ 4
        - (quantize4 (convert 10 12345678900500000) : ℚ)| ≤ 1 / 2
    ∧ quantize4 (convert 10 12345678900500000) % 2 = 0 := by
  have h := c3_display_rounds_half_even (convert 10 12345678900500000)
  refine ⟨h.1, h.2.1 ?_⟩
  have hconv : convert 10 12345678900500000 = ⟨12345678900500000, -10⟩ := by decide
  rw [hconv]
  have hval : Dec.val ⟨12345678900500000, -10⟩ * 10 ^ 4
      = ((12345678900 : ℤ) : ℚ) + 1 / 2 := by
    unfold Dec.val
    rw [zpow_neg]
    norm_num
  rw [hval, Int.fract_int_add, Int.fract_eq_self.2 ⟨by norm_num, by norm_num⟩]

/-- Witness for C9 at a file of only comment and blank lines. -/
theorem c9_witness :
    (mainRun wEmptyFile).out = ["Total: 0.0000 " ++ wEmptyFile.symbol]
    ∧ (mainRun wEmptyFile).err = none
    ∧ ∀ a, Ev.callBalanceOf a ∉ (mainRun wEmptyFile).trace :=
  c9_empty_list_total_zero wEmptyFile "http://rpc.example" rfl (by decide) rfl rfl rfl
    (by decide)
